import Mathlib

/-!
# Verification of the contact-resolution core (PGS / ADMM-CCP assignment notebook)

Shallow embedding of the contact-solver functions found in the repository's
contact-simulation notebook:

* `solve_contact` — the PGS solver skeleton.  Its source initializes
  `lam = np.zeros(3*nc)`, runs `for j in range(max_iter): for i in range(nc): pass`
  (the loop body is the unfilled exercise placeholder `pass`), and returns `lam`.
* `solve_contact_ADMM_CCP` — the ADMM solver skeleton.  Its source body is only
  the placeholder comment followed by `return lam`, where `lam` is never
  assigned locally; Python resolves the name in the enclosing global namespace.
  We model the global namespace lookup by an explicit `globalLam` argument:
  `some v` means a global variable `lam` bound to `v` exists, `none` means the
  lookup fails (Python raises `NameError`), which we embed as the `none` result.
* `SOC_projection` — the fully implemented friction-cone (second-order cone)
  projection helper, translated block by block.
* `compute_sig_residual` — the Signorini-residual diagnostic skeleton.  Its
  source allocates `resid_vec = np.zeros(3*n_c)`, runs a loop whose body is
  `pass`, and returns `np.linalg.norm(resid_vec, np.inf)`.

Real (exact) arithmetic stands in for IEEE floating point.  The only partial
operation is the division by the tangential norm inside `SOC_projection`
(`projected_point[0]*lam[i*3:i*3+2]/norm`): when `norm = 0` NumPy produces
NaN entries.  We embed "the result contains NaN" as the `none` value of an
`Option`-typed result.  `np.linalg.norm(v, np.inf)` errors on an empty vector,
also embedded as `none`.
-/

set_option maxHeartbeats 1000000
set_option linter.unusedVariables false

noncomputable section

open Classical

/-- `solve_contact(G, g, mus, tol, max_iter)` from the notebook.
    `nc = len(mus)`; `lam = np.zeros(3*nc)`; the doubly nested loop
    `for j in range(max_iter): for i in range(nc): pass` has the placeholder
    body `pass`, embedded as folds that leave the accumulator unchanged;
    finally `lam` is returned. -/
def solve_contact (G : List (List ℝ)) (g : List ℝ) (mus : List ℝ)
    (tol : ℝ) (max_iter : ℕ) : List ℝ :=
  let nc := mus.length
  let lam : List ℝ := List.replicate (3 * nc) 0
  let lam := (List.range max_iter).foldl
    (fun acc _j => (List.range nc).foldl (fun acc2 _i => acc2) acc) lam
  lam

/-- `solve_contact_ADMM_CCP(G, g, mus, rho, max_iter)` from the notebook.
    The body is only the placeholder comment and `return lam`; `lam` is not
    assigned anywhere in the function, so Python resolves it as a global
    variable.  `globalLam` is that global binding: `some v` if a global `lam`
    exists (the function then returns it unchanged), `none` if not (Python
    raises `NameError: name 'lam' is not defined`, embedded as `none`). -/
def solve_contact_ADMM_CCP (G : List (List ℝ)) (g : List ℝ) (mus : List ℝ)
    (rho : ℝ) (max_iter : ℕ) (globalLam : Option (List ℝ)) : Option (List ℝ) :=
  globalLam

/-- `np.linalg.norm(v, np.inf)`: the maximum absolute value of the entries.
    NumPy raises an error on a zero-size array, embedded as `none`. -/
def linalg_norm_inf (v : List ℝ) : Option ℝ :=
  match v.map (fun x => |x|) with
  | [] => none
  | x :: xs => some (xs.foldl max x)

/-- `compute_sig_residual(lambda_n, c_n, c_n_star)` from the notebook.
    `n_c = len(lambda_n)`; `resid_vec = np.zeros(3*n_c)`; the loop
    `for i in range(n_c):` has the placeholder body `pass` (embedded as a fold
    leaving the accumulator unchanged); returns `np.linalg.norm(resid_vec, np.inf)`. -/
def compute_sig_residual (lambda_n : List ℝ) (c_n : List ℝ) (c_n_star : List ℝ) :
    Option ℝ :=
  let n_c := lambda_n.length
  let resid_vec : List ℝ := List.replicate (3 * n_c) 0
  let resid_vec := (List.range n_c).foldl (fun acc _i => acc) resid_vec
  linalg_norm_inf resid_vec

/-- Follows the spec's words (§4.4 Signorini Residual Diagnostic), for
    comparison with `compute_sig_residual`: per contact, the three residual
    quantities `max(0, -λ_N)`, `max(0, -(c_N - c_N*))` and `λ_N·(c_N - c_N*)`,
    flattened over all contacts, reduced by the infinity norm. -/
def sig_residual_spec (lambda_n : List ℝ) (c_n : List ℝ) (c_n_star : List ℝ) :
    Option ℝ :=
  let triples := (lambda_n.zip (c_n.zip c_n_star)).map
    (fun p => [max 0 (-p.1), max 0 (-(p.2.1 - p.2.2)), p.1 * (p.2.1 - p.2.2)])
  linalg_norm_inf triples.flatten

/-- Groups a flat impulse vector into 3-blocks `(λ_Tx, λ_Ty, λ_N)`,
    mirroring `nc = lam.shape[0]//3` and the stride-3 slicing of the source
    (a leftover of fewer than 3 trailing entries is not processed). -/
def chunk3 : List ℝ → List (ℝ × ℝ × ℝ)
  | t1 :: t2 :: z :: rest => (t1, t2, z) :: chunk3 rest
  | _ => []

/-- Flattens 3-blocks back into the flat vector layout. -/
def flatten3 : List (ℝ × ℝ × ℝ) → List ℝ
  | [] => []
  | (t1, t2, z) :: rest => t1 :: t2 :: z :: flatten3 rest

/-- `np.array([mus[i],1])/np.linalg.norm([mus[i],1])` from `SOC_projection`. -/
def friction_cone_exterior (μ : ℝ) : ℝ × ℝ :=
  (μ / Real.sqrt (μ ^ 2 + 1 ^ 2), 1 / Real.sqrt (μ ^ 2 + 1 ^ 2))

/-- `projected_point = (np.array([x, z]).T@friction_cone_exterior)*friction_cone_exterior`
    followed by `if projected_point[1] < 0: projected_point *= 0`
    from `SOC_projection`. -/
def projected_point (μ x z : ℝ) : ℝ × ℝ :=
  let e := friction_cone_exterior μ
  let raw := ((x * e.1 + z * e.2) * e.1, (x * e.1 + z * e.2) * e.2)
  if raw.2 < 0 then (0, 0) else raw

/-- The body of the per-contact loop of `SOC_projection` for one 3-block:
    `norm = np.linalg.norm(lam[i*3:i*3+2])`; if `norm > mus[i]*lam[i*3+2]`
    the block is projected (`lam_proj[i*3:i*3+2] = projected_point[0]*lam[i*3:i*3+2]/norm`,
    `lam_proj[i*3+2] = projected_point[1]`), otherwise it is copied unchanged.
    When `norm = 0` the division `0*lam_tangential/0` produces NaN entries in
    NumPy; this is embedded as the `none` result. -/
def projBlock (μ : ℝ) : ℝ × ℝ × ℝ → Option (ℝ × ℝ × ℝ)
  | (t1, t2, z) =>
    let norm := Real.sqrt (t1 ^ 2 + t2 ^ 2)
    if norm > μ * z then
      let p := projected_point μ norm z
      if norm = 0 then none
      else some (p.1 * t1 / norm, p.1 * t2 / norm, p.2)
    else some (t1, t2, z)

/-- The `for i in range(nc)` loop of `SOC_projection`, one `projBlock` per
    contact; `none` as soon as some block produces NaN. -/
def projList : List ((ℝ × ℝ × ℝ) × ℝ) → Option (List (ℝ × ℝ × ℝ))
  | [] => some []
  | (b, μ) :: rest =>
    match projBlock μ b, projList rest with
    | some b2, some rest2 => some (b2 :: rest2)
    | _, _ => none

/-- `SOC_projection(lam, mus)` from the notebook: `nc = lam.shape[0]//3`,
    `lam_proj = np.zeros(lam.shape)`, per-contact cone projection.
    Trailing entries beyond `3*nc` are never written and stay `0` (the
    `np.zeros` initialization).  The embedding requires `mus` to cover every
    block, as all specification claims do (in the source a too-short `mus`
    would raise `IndexError`, which is not modelled). -/
def SOC_projection (lam : List ℝ) (mus : List ℝ) : Option (List ℝ) :=
  (projList ((chunk3 lam).zip mus)).map
    (fun bs => flatten3 bs ++ List.replicate (lam.length % 3) 0)

/-- Membership of one 3-block in the Coulomb friction cone `K_μ`
    (spec §3 Data Model): tangential norm at most `μ` times the normal
    component, normal component nonnegative. -/
def inCone (μ : ℝ) : ℝ × ℝ × ℝ → Prop
  | (t1, t2, z) => Real.sqrt (t1 ^ 2 + t2 ^ 2) ≤ μ * z ∧ 0 ≤ z

/-! ## Helper lemmas -/

/-- A fold whose body leaves the accumulator unchanged (the `pass` placeholder
    of the unimplemented solver loops) returns the initial accumulator. -/
theorem foldl_pass {α β : Type} (l : List β) (acc : α) :
    l.foldl (fun a _ => a) acc = acc := by
  induction l generalizing acc with
  | nil => rfl
  | cons x xs ih => exact ih acc

theorem foldl_max_replicate_zero (k : ℕ) :
    (List.replicate k (0 : ℝ)).foldl max 0 = 0 := by
  induction k with
  | zero => rfl
  | succ n ih => simpa [List.replicate_succ] using ih

/-- Unfolding equation for `inCone`. -/
theorem inCone_def (μ t1 t2 z : ℝ) :
    inCone μ (t1, t2, z) ↔ Real.sqrt (t1 ^ 2 + t2 ^ 2) ≤ μ * z ∧ 0 ≤ z :=
  Iff.rfl

/-- The two components of `projected_point` always satisfy
    `p.1 = μ * p.2` (the projected 2D point lies on the cone-boundary ray
    through `(μ, 1)`, or is the origin) and `0 ≤ p.2`. -/
theorem projected_point_spec (μ x z : ℝ) :
    (projected_point μ x z).1 = μ * (projected_point μ x z).2 ∧
      0 ≤ (projected_point μ x z).2 := by
  simp only [projected_point, friction_cone_exterior]
  split_ifs with h
  · norm_num
  · exact ⟨by ring, not_lt.mp h⟩

/-- Norm of a rescaled tangential pair: dividing `(t1, t2)` by its own norm
    and multiplying by `a ≥ 0` yields a pair of norm `a`. -/
theorem sqrt_scaled_norm (a t1 t2 n : ℝ) (hn : n = Real.sqrt (t1 ^ 2 + t2 ^ 2))
    (hpos : 0 < n) (ha : 0 ≤ a) :
    Real.sqrt ((a * t1 / n) ^ 2 + (a * t2 / n) ^ 2) = a := by
  have hn2 : n ^ 2 = t1 ^ 2 + t2 ^ 2 := by
    rw [hn]; exact Real.sq_sqrt (by positivity)
  have hne : n ≠ 0 := ne_of_gt hpos
  have key : (a * t1 / n) ^ 2 + (a * t2 / n) ^ 2 = a ^ 2 * (t1 ^ 2 + t2 ^ 2) / n ^ 2 := by
    ring
  rw [key, ← hn2, mul_div_assoc, div_self (pow_ne_zero 2 hne), mul_one,
    Real.sqrt_sq ha]

/-- Unfolding equation for `projBlock`. -/
theorem projBlock_def (μ t1 t2 z : ℝ) :
    projBlock μ (t1, t2, z) =
      if Real.sqrt (t1 ^ 2 + t2 ^ 2) > μ * z then
        if Real.sqrt (t1 ^ 2 + t2 ^ 2) = 0 then none
        else
          some
            ((projected_point μ (Real.sqrt (t1 ^ 2 + t2 ^ 2)) z).1 * t1 /
                Real.sqrt (t1 ^ 2 + t2 ^ 2),
              (projected_point μ (Real.sqrt (t1 ^ 2 + t2 ^ 2)) z).1 * t2 /
                Real.sqrt (t1 ^ 2 + t2 ^ 2),
              (projected_point μ (Real.sqrt (t1 ^ 2 + t2 ^ 2)) z).2)
      else some (t1, t2, z) := rfl

/-- Whenever `projBlock` returns a block (no NaN), and `μ ≥ 0`, and the input
    block is not in the unguarded corner (zero tangential part together with a
    negative normal component), the returned block lies in the friction cone. -/
theorem projBlock_inCone (μ t1 t2 z : ℝ) (b2 : ℝ × ℝ × ℝ) (hμ : 0 ≤ μ)
    (hnd : t1 ≠ 0 ∨ t2 ≠ 0 ∨ 0 ≤ z)
    (h : projBlock μ (t1, t2, z) = some b2) : inCone μ b2 := by
  rw [projBlock_def] at h
  split_ifs at h with hbr hn0
  · obtain ⟨hp1, hp2⟩ := projected_point_spec μ (Real.sqrt (t1 ^ 2 + t2 ^ 2)) z
    have hpos : 0 < Real.sqrt (t1 ^ 2 + t2 ^ 2) :=
      (Real.sqrt_nonneg _).lt_of_ne (Ne.symm hn0)
    have hp1n : 0 ≤ (projected_point μ (Real.sqrt (t1 ^ 2 + t2 ^ 2)) z).1 := by
      rw [hp1]; exact mul_nonneg hμ hp2
    injection h with h
    rw [← h, inCone_def]
    constructor
    · rw [sqrt_scaled_norm _ t1 t2 _ rfl hpos hp1n, hp1]
    · exact hp2
  · injection h with h
    rw [← h, inCone_def]
    refine ⟨not_lt.mp hbr, ?_⟩
    rcases lt_or_eq_of_le hμ with hpos | hzero
    · by_contra hz
      have hneg : μ * z < 0 := mul_neg_of_pos_of_neg hpos (not_le.mp hz)
      exact absurd (le_trans (Real.sqrt_nonneg _) (not_lt.mp hbr)) (not_le.mpr hneg)
    · have hn : Real.sqrt (t1 ^ 2 + t2 ^ 2) = 0 := by
        have h1 := Real.sqrt_nonneg (t1 ^ 2 + t2 ^ 2)
        have h2 := not_lt.mp hbr
        rw [← hzero, zero_mul] at h2
        exact le_antisymm h2 h1
      have hsum : t1 ^ 2 + t2 ^ 2 = 0 :=
        (Real.sqrt_eq_zero (by positivity)).mp hn
      have ht1 : t1 = 0 := by nlinarith [sq_nonneg t1, sq_nonneg t2]
      have ht2 : t2 = 0 := by nlinarith [sq_nonneg t1, sq_nonneg t2]
      rcases hnd with hc | hc | hc
      · exact absurd ht1 hc
      · exact absurd ht2 hc
      · exact hc

/-- A block with zero tangential part that produces an output (no NaN) is
    returned entirely unchanged. -/
theorem projBlock_zero_tangential (μ z : ℝ) (b2 : ℝ × ℝ × ℝ)
    (h : projBlock μ (0, 0, z) = some b2) : b2 = (0, 0, z) := by
  rw [projBlock_def] at h
  have h0 : Real.sqrt ((0 : ℝ) ^ 2 + (0 : ℝ) ^ 2) = 0 := by
    norm_num
  rw [h0] at h
  split_ifs at h with hbr h00
  · exact absurd rfl h00
  · injection h with h
    exact h.symm

/-- Every block that `projBlock` outputs is a fixed point of `projBlock`. -/
theorem projBlock_fixed (μ : ℝ) (b b2 : ℝ × ℝ × ℝ) (hμ : 0 ≤ μ)
    (h : projBlock μ b = some b2) : projBlock μ b2 = some b2 := by
  obtain ⟨t1, t2, z⟩ := b
  rw [projBlock_def] at h
  split_ifs at h with hbr hn0
  · obtain ⟨hp1, hp2⟩ := projected_point_spec μ (Real.sqrt (t1 ^ 2 + t2 ^ 2)) z
    have hpos : 0 < Real.sqrt (t1 ^ 2 + t2 ^ 2) :=
      (Real.sqrt_nonneg _).lt_of_ne (Ne.symm hn0)
    have hp1n : 0 ≤ (projected_point μ (Real.sqrt (t1 ^ 2 + t2 ^ 2)) z).1 := by
      rw [hp1]; exact mul_nonneg hμ hp2
    injection h with h
    rw [← h, projBlock_def, sqrt_scaled_norm _ t1 t2 _ rfl hpos hp1n, hp1,
      if_neg (lt_irrefl _)]
  · injection h with h
    rw [← h, projBlock_def, if_neg hbr]

/-- A block already in the friction cone is returned unchanged. -/
theorem projBlock_of_inCone (μ : ℝ) (b : ℝ × ℝ × ℝ) (h : inCone μ b) :
    projBlock μ b = some b := by
  obtain ⟨t1, t2, z⟩ := b
  obtain ⟨h1, h2⟩ := h
  rw [projBlock_def, if_neg (not_lt.mpr h1)]

/-- Pointwise reading of a successful `projList` run: the output has one block
    per input pair, and block `i` of the output is the `projBlock` image of
    input block `i` under the `i`-th friction coefficient. -/
theorem projList_some (pairs : List ((ℝ × ℝ × ℝ) × ℝ)) (bs : List (ℝ × ℝ × ℝ))
    (h : projList pairs = some bs) :
    bs.length = pairs.length ∧
      ∀ i, i < pairs.length →
        projBlock (pairs.getD i ((0, 0, 0), 0)).2 (pairs.getD i ((0, 0, 0), 0)).1 =
          some (bs.getD i (0, 0, 0)) := by
  induction pairs generalizing bs with
  | nil =>
    simp only [projList, Option.some.injEq] at h
    subst h
    simp
  | cons hd tl ih =>
    obtain ⟨b, μ⟩ := hd
    cases hb : projBlock μ b with
    | none => rw [projList, hb] at h; exact Option.noConfusion h
    | some b2 =>
      cases ht : projList tl with
      | none => rw [projList, hb, ht] at h; exact Option.noConfusion h
      | some rest2 =>
        rw [projList, hb, ht] at h
        injection h with h
        subst h
        obtain ⟨ihl, ihp⟩ := ih rest2 ht
        constructor
        · simpa using ihl
        · intro i hi
          cases i with
          | zero => simpa using hb
          | succ n =>
            simpa using ihp n (by simpa using hi)

/-- If `projList` succeeds on a list of blocks, it maps its own output
    (paired with the same nonnegative coefficients) to itself. -/
theorem projList_fixed (blocks : List (ℝ × ℝ × ℝ)) (mus : List ℝ)
    (bs : List (ℝ × ℝ × ℝ)) (hμ : ∀ μ ∈ mus, 0 ≤ μ)
    (h : projList (blocks.zip mus) = some bs) :
    projList (bs.zip mus) = some bs := by
  induction blocks generalizing mus bs with
  | nil =>
    simp only [List.zip_nil_left, projList, Option.some.injEq] at h
    subst h
    simp [projList]
  | cons b tl ih =>
    cases mus with
    | nil =>
      simp only [List.zip_nil_right, projList, Option.some.injEq] at h
      subst h
      simp [projList]
    | cons μ μs =>
      rw [List.zip_cons_cons] at h
      cases hb : projBlock μ b with
      | none => rw [projList, hb] at h; exact Option.noConfusion h
      | some b2 =>
        cases ht : projList (tl.zip μs) with
        | none => rw [projList, hb, ht] at h; exact Option.noConfusion h
        | some rest2 =>
          rw [projList, hb, ht] at h
          injection h with h
          subst h
          have hμhead : 0 ≤ μ := hμ μ (by simp)
          have hμtail : ∀ m ∈ μs, 0 ≤ m := fun m hm => hμ m (by simp [hm])
          rw [List.zip_cons_cons, projList, projBlock_fixed μ b b2 hμhead hb,
            ih μs rest2 hμtail ht]

/-- If every block is already in its friction cone, `projList` returns the
    blocks unchanged. -/
theorem projList_of_inCone (blocks : List (ℝ × ℝ × ℝ)) (mus : List ℝ)
    (hlen : blocks.length = mus.length)
    (h : ∀ i, i < mus.length → inCone (mus.getD i 0) (blocks.getD i (0, 0, 0))) :
    projList (blocks.zip mus) = some blocks := by
  induction blocks generalizing mus with
  | nil =>
    cases mus with
    | nil => simp [projList]
    | cons μ μs => simp at hlen
  | cons b tl ih =>
    cases mus with
    | nil => simp at hlen
    | cons μ μs =>
      have h0 : inCone μ b := by simpa using h 0 (by simp)
      have htl : ∀ i, i < μs.length → inCone (μs.getD i 0) (tl.getD i (0, 0, 0)) := by
        intro i hi
        simpa using h (i + 1) (by simpa using Nat.succ_lt_succ hi)
      rw [List.zip_cons_cons, projList, projBlock_of_inCone μ b h0,
        ih μs (by simpa using hlen) htl]

/-- `getD` of a `zip` is the pair of `getD`s, within bounds. -/
theorem zip_getD (blocks : List (ℝ × ℝ × ℝ)) (mus : List ℝ) (i : ℕ)
    (h1 : i < blocks.length) (h2 : i < mus.length) :
    (blocks.zip mus).getD i ((0, 0, 0), 0) =
      (blocks.getD i (0, 0, 0), mus.getD i 0) := by
  induction blocks generalizing mus i with
  | nil => simp at h1
  | cons b tl ih =>
    cases mus with
    | nil => simp at h2
    | cons μ μs =>
      cases i with
      | zero => simp
      | succ n =>
        rw [List.zip_cons_cons]
        simpa using ih μs n (by simpa using h1) (by simpa using h2)

theorem chunk3_length : ∀ l : List ℝ, (chunk3 l).length = l.length / 3
  | [] => by simp [chunk3]
  | [a] => by simp [chunk3]
  | [a, b] => by simp [chunk3]
  | a :: b :: c :: rest => by
    have ih := chunk3_length rest
    simp only [chunk3, List.length_cons, ih]
    omega

theorem flatten3_length : ∀ bs : List (ℝ × ℝ × ℝ),
    (flatten3 bs).length = 3 * bs.length
  | [] => by simp [flatten3]
  | (t1, t2, z) :: rest => by
    have ih := flatten3_length rest
    simp only [flatten3, List.length_cons, ih]
    omega

theorem chunk3_flatten3 : ∀ bs : List (ℝ × ℝ × ℝ), chunk3 (flatten3 bs) = bs
  | [] => rfl
  | (t1, t2, z) :: rest => by
    simp [flatten3, chunk3, chunk3_flatten3 rest]

theorem flatten3_chunk3 : ∀ l : List ℝ, l.length % 3 = 0 → flatten3 (chunk3 l) = l
  | [], _ => rfl
  | [a], h => by simp at h
  | [a, b], h => by simp at h
  | a :: b :: c :: rest, h => by
    have h3 : rest.length % 3 = 0 := by
      simp only [List.length_cons] at h
      omega
    simp [chunk3, flatten3, flatten3_chunk3 rest h3]

/-- With matching dimensions (`len(lam) = 3·Nc`), the trailing zero-fill of
    `lam_proj` is empty and `SOC_projection` is block projection followed by
    re-flattening. -/
theorem SOC_projection_eq (lam mus : List ℝ) (hlen : lam.length = 3 * mus.length) :
    SOC_projection lam mus = (projList ((chunk3 lam).zip mus)).map flatten3 := by
  have h0 : lam.length % 3 = 0 := by omega
  simp [SOC_projection, h0]

/-- Component-wise form of `projBlock_inCone`. -/
theorem projBlock_inCone_pair (μ : ℝ) (b b2 : ℝ × ℝ × ℝ) (hμ : 0 ≤ μ)
    (hnd : b.1 ≠ 0 ∨ b.2.1 ≠ 0 ∨ 0 ≤ b.2.2)
    (h : projBlock μ b = some b2) : inCone μ b2 := by
  obtain ⟨t1, t2, z⟩ := b
  exact projBlock_inCone μ t1 t2 z b2 hμ hnd h

theorem getD_mem_of_lt (l : List ℝ) (i : ℕ) (d : ℝ) (h : i < l.length) :
    l.getD i d ∈ l := by
  rw [List.getD_eq_getElem l d h]
  exact List.getElem_mem h

theorem triple_of_components (b : ℝ × ℝ × ℝ) (h1 : b.1 = 0) (h2 : b.2.1 = 0) :
    b = (0, 0, b.2.2) := by
  obtain ⟨x, y, w⟩ := b
  simp only at h1 h2 ⊢
  rw [h1, h2]

/-- Evaluation helper: a block whose tangential norm does not exceed
    `μ·λ_N` is copied unchanged (the `else` branch of `SOC_projection`). -/
theorem projBlock_eval_else (μ t1 t2 z : ℝ)
    (h : ¬Real.sqrt (t1 ^ 2 + t2 ^ 2) > μ * z) :
    projBlock μ (t1, t2, z) = some (t1, t2, z) := by
  rw [projBlock_def, if_neg h]

/-- Evaluation helper: a block with zero tangential part and `μ·λ_N < 0`
    enters the projection branch with `norm = 0` and produces NaN. -/
theorem projBlock_eval_none (μ z : ℝ) (h : μ * z < 0) :
    projBlock μ (0, 0, z) = none := by
  rw [projBlock_def]
  have h0 : Real.sqrt ((0 : ℝ) ^ 2 + (0 : ℝ) ^ 2) = 0 := by norm_num
  rw [h0, if_pos h, if_pos rfl]

/-- Evaluation helper: `SOC_projection` on a single contact. -/
theorem SOC_projection_singleton (μ t1 t2 z : ℝ) (b2 : ℝ × ℝ × ℝ)
    (hb : projBlock μ (t1, t2, z) = some b2) :
    SOC_projection [t1, t2, z] [μ] = some [b2.1, b2.2.1, b2.2.2] := by
  obtain ⟨u1, u2, w⟩ := b2
  simp [SOC_projection, chunk3, projList, hb, flatten3]

/-- Evaluation helper: `SOC_projection` on a single NaN-producing contact. -/
theorem SOC_projection_singleton_none (μ t1 t2 z : ℝ)
    (hb : projBlock μ (t1, t2, z) = none) :
    SOC_projection [t1, t2, z] [μ] = none := by
  simp [SOC_projection, chunk3, projList, hb]

/-! ## Theorems about the cone projection -/

/-- C3 counterexample: with `μ = 0` and the block `(0, 0, -1)` (zero
    tangential part, negative normal), the condition `norm > μ·λ_N` is
    `0 > 0`, which is false, so `SOC_projection` copies the block unchanged —
    the output block has normal component `-1 < 0` and is not in the friction
    cone `K_0`. -/
theorem soc_projection_feasibility_cx :
    SOC_projection [0, 0, -1] [0] = some [0, 0, -1] ∧ ¬inCone 0 (0, 0, -1) := by
  constructor
  · have hb : projBlock 0 ((0 : ℝ), 0, -1) = some (0, 0, -1) :=
      projBlock_eval_else 0 0 0 (-1) (by norm_num)
    simpa using SOC_projection_singleton 0 0 0 (-1) (0, 0, -1) hb
  · rw [inCone_def]
    norm_num

/-- C3 (amended): assume matching dimensions, all `μ^i ≥ 0`, and that
    `SOC_projection` returns a vector (no NaN was produced, which fails
    exactly when some block has zero tangential part, negative normal and
    `μ^i > 0`).  Then every output 3-block whose input block is outside the
    unguarded corner (zero tangential part together with negative normal —
    such blocks are copied unchanged and violate the cone when `μ^i = 0`)
    lies in its friction cone. -/
theorem soc_projection_feasible (lam mus out : List ℝ)
    (hlen : lam.length = 3 * mus.length)
    (hmus : ∀ μ ∈ mus, 0 ≤ μ)
    (hout : SOC_projection lam mus = some out)
    (i : ℕ) (hi : i < mus.length)
    (hnd : ((chunk3 lam).getD i (0, 0, 0)).1 ≠ 0 ∨
      ((chunk3 lam).getD i (0, 0, 0)).2.1 ≠ 0 ∨
      0 ≤ ((chunk3 lam).getD i (0, 0, 0)).2.2) :
    inCone (mus.getD i 0) ((chunk3 out).getD i (0, 0, 0)) := by
  rw [SOC_projection_eq lam mus hlen] at hout
  cases hpl : projList ((chunk3 lam).zip mus) with
  | none => rw [hpl] at hout; exact Option.noConfusion hout
  | some bs =>
    rw [hpl, Option.map_some'] at hout
    injection hout with hout
    subst hout
    rw [chunk3_flatten3]
    have hblen : (chunk3 lam).length = mus.length := by
      rw [chunk3_length]; omega
    have hplen : ((chunk3 lam).zip mus).length = mus.length := by
      rw [List.length_zip, hblen, min_self]
    obtain ⟨hl, hp⟩ := projList_some _ bs hpl
    have hpi := hp i (by rw [hplen]; exact hi)
    rw [zip_getD (chunk3 lam) mus i (by rw [hblen]; exact hi) hi] at hpi
    simp only at hpi
    exact projBlock_inCone_pair (mus.getD i 0) _ _
      (hmus _ (getD_mem_of_lt mus i 0 hi)) hnd hpi

/-- Witness for `soc_projection_feasible`: one contact with `μ = 0` and the
    feasible block `(0, 0, 1)`. -/
theorem soc_projection_feasible_witness :
    SOC_projection [0, 0, 1] [0] = some [0, 0, 1] ∧ inCone 0 (0, 0, 1) := by
  have hb : projBlock 0 ((0 : ℝ), 0, 1) = some (0, 0, 1) :=
    projBlock_eval_else 0 0 0 1 (by norm_num)
  have hout : SOC_projection [0, 0, 1] [0] = some [0, 0, 1] := by
    simpa using SOC_projection_singleton 0 0 0 1 (0, 0, 1) hb
  refine ⟨hout, ?_⟩
  have h := soc_projection_feasible [0, 0, 1] [0] [0, 0, 1] (by simp)
    (by intro μ hm; rw [List.mem_singleton] at hm; rw [hm])
    hout 0 (by simp) (by right; right; norm_num [chunk3])
  simpa [chunk3] using h

/-- C4 counterexample: the block `(0, 0, -1)` with `μ = 1` has zero
    tangential part, yet `SOC_projection` enters the projection branch
    (`0 > 1·(-1)`), divides by the zero tangential norm and produces NaN
    tangential components (embedded as `none`) instead of zero ones. -/
theorem soc_projection_nan_cx : SOC_projection [0, 0, -1] [1] = none := by
  exact SOC_projection_singleton_none 1 0 0 (-1)
    (projBlock_eval_none 1 (-1) (by norm_num))

/-- C4 (amended): whenever `SOC_projection` returns a vector at all (no NaN),
    every block whose input tangential components are exactly zero keeps
    exactly zero tangential components in the output.  (The unguarded case —
    zero tangential part with `μ^i·λ_N < 0` — produces NaN instead, so no
    vector is returned.) -/
theorem soc_projection_zero_tangential (lam mus out : List ℝ)
    (hlen : lam.length = 3 * mus.length)
    (hout : SOC_projection lam mus = some out)
    (i : ℕ) (hi : i < mus.length)
    (h1 : ((chunk3 lam).getD i (0, 0, 0)).1 = 0)
    (h2 : ((chunk3 lam).getD i (0, 0, 0)).2.1 = 0) :
    ((chunk3 out).getD i (0, 0, 0)).1 = 0 ∧
      ((chunk3 out).getD i (0, 0, 0)).2.1 = 0 := by
  rw [SOC_projection_eq lam mus hlen] at hout
  cases hpl : projList ((chunk3 lam).zip mus) with
  | none => rw [hpl] at hout; exact Option.noConfusion hout
  | some bs =>
    rw [hpl, Option.map_some'] at hout
    injection hout with hout
    subst hout
    rw [chunk3_flatten3]
    have hblen : (chunk3 lam).length = mus.length := by
      rw [chunk3_length]; omega
    have hplen : ((chunk3 lam).zip mus).length = mus.length := by
      rw [List.length_zip, hblen, min_self]
    obtain ⟨hl, hp⟩ := projList_some _ bs hpl
    have hpi := hp i (by rw [hplen]; exact hi)
    rw [zip_getD (chunk3 lam) mus i (by rw [hblen]; exact hi) hi] at hpi
    simp only at hpi
    rw [triple_of_components _ h1 h2] at hpi
    have hb2 := projBlock_zero_tangential (mus.getD i 0) _ _ hpi
    rw [hb2]
    exact ⟨rfl, rfl⟩

/-- Witness for `soc_projection_zero_tangential`: one contact with `μ = 2`
    and the zero-tangential block `(0, 0, 5)`. -/
theorem soc_projection_zero_tangential_witness :
    ((chunk3 ([0, 0, 5] : List ℝ)).getD 0 (0, 0, 0)).1 = 0 ∧
      ((chunk3 ([0, 0, 5] : List ℝ)).getD 0 (0, 0, 0)).2.1 = 0 := by
  have hb : projBlock 2 ((0 : ℝ), 0, 5) = some (0, 0, 5) :=
    projBlock_eval_else 2 0 0 5 (by norm_num)
  have hout : SOC_projection [0, 0, 5] [2] = some [0, 0, 5] := by
    simpa using SOC_projection_singleton 2 0 0 5 (0, 0, 5) hb
  exact soc_projection_zero_tangential [0, 0, 5] [2] [0, 0, 5] (by simp) hout 0
    (by simp) (by norm_num [chunk3]) (by norm_num [chunk3])

/-- C5: `SOC_projection` is idempotent in exact arithmetic (projecting the
    projected vector again returns it unchanged, also when the first
    projection produced NaN, where both sides are the NaN result), and a
    vector all of whose blocks already lie in their friction cones is
    returned entirely unchanged. -/
theorem SOC_projection_idempotent (lam mus : List ℝ)
    (hlen : lam.length = 3 * mus.length)
    (hmus : ∀ μ ∈ mus, 0 ≤ μ) :
    (SOC_projection lam mus).bind (fun lam2 => SOC_projection lam2 mus) =
        SOC_projection lam mus
    ∧ ((∀ i, i < mus.length →
          inCone (mus.getD i 0) ((chunk3 lam).getD i (0, 0, 0))) →
        SOC_projection lam mus = some lam) := by
  constructor
  · rw [SOC_projection_eq lam mus hlen]
    cases hpl : projList ((chunk3 lam).zip mus) with
    | none => rfl
    | some bs =>
      rw [Option.map_some', Option.some_bind]
      obtain ⟨hl, _⟩ := projList_some _ bs hpl
      have hbl : bs.length = mus.length := by
        rw [hl, List.length_zip, chunk3_length]
        omega
      have hlen2 : (flatten3 bs).length = 3 * mus.length := by
        rw [flatten3_length, hbl]
      rw [SOC_projection_eq _ _ hlen2, chunk3_flatten3,
        projList_fixed (chunk3 lam) mus bs hmus hpl, Option.map_some']
  · intro hcone
    have hblen : (chunk3 lam).length = mus.length := by
      rw [chunk3_length]; omega
    rw [SOC_projection_eq lam mus hlen,
      projList_of_inCone (chunk3 lam) mus hblen hcone, Option.map_some',
      flatten3_chunk3 lam (by omega)]

/-- Witness for `SOC_projection_idempotent`: one contact with `μ = 1` and
    the feasible block `(0, 0, 1)`. -/
theorem SOC_projection_idempotent_witness :
    ((SOC_projection [0, 0, 1] [1]).bind (fun lam2 => SOC_projection lam2 [1]) =
        SOC_projection [0, 0, 1] [1])
    ∧ ((∀ i, i < ([1] : List ℝ).length →
          inCone (([1] : List ℝ).getD i 0) ((chunk3 [0, 0, 1]).getD i (0, 0, 0))) →
        SOC_projection [0, 0, 1] [1] = some [0, 0, 1]) :=
  SOC_projection_idempotent [0, 0, 1] [1] (by simp)
    (by intro μ hm; rw [List.mem_singleton] at hm; rw [hm]; norm_num)

/-! ## Theorems about the solver and diagnostic skeletons -/

/-- C2: for every input `G`, `g`, `mus`, `tol` and `max_iter`, `solve_contact`
    returns the all-zero vector of length `3·len(mus)`; the result does not
    depend on `G`, `g`, `tol` or `max_iter` (the loop body of the skeleton is
    the placeholder `pass`). -/
theorem solve_contact_returns_zero (G : List (List ℝ)) (g : List ℝ)
    (mus : List ℝ) (tol : ℝ) (max_iter : ℕ) :
    solve_contact G g mus tol max_iter = List.replicate (3 * mus.length) 0 := by
  simp [solve_contact, foldl_pass]

/-- C1: at a valid one-contact input (`G` the 3×3 identity, `g = (0,0,-1)`,
    `mus = [1/2]`, `max_iter = 100`), `solve_contact` terminates normally and
    returns an impulse vector, but `solve_contact_ADMM_CCP` evaluated in a
    fresh namespace (no global `lam` bound) produces no result: its stub body
    `return lam` raises `NameError`, contradicting the claim that neither
    solver raises an exception on valid inputs. -/
theorem contact_solvers_stub_eval :
    solve_contact [[1, 0, 0], [0, 1, 0], [0, 0, 1]] [0, 0, -1] [1 / 2]
        (1 / 1000000) 100 = [0, 0, 0]
    ∧ solve_contact_ADMM_CCP [[1, 0, 0], [0, 1, 0], [0, 0, 1]] [0, 0, -1]
        [1 / 2] 10 100 none = none := by
  constructor
  · simp [solve_contact, foldl_pass, List.replicate]
  · rfl

/-- C8: `solve_contact` always returns a vector of length `3·Nc`, but at a
    valid one-contact input `solve_contact_ADMM_CCP` with no global `lam`
    bound returns no vector at all (`NameError`), so the output-length
    contract fails for the ADMM solver. -/
theorem solver_output_length_eval :
    (∀ (G : List (List ℝ)) (g : List ℝ) (mus : List ℝ) (tol : ℝ)
        (max_iter : ℕ),
        (solve_contact G g mus tol max_iter).length = 3 * mus.length)
    ∧ solve_contact_ADMM_CCP [[1, 0, 0], [0, 1, 0], [0, 0, 1]] [0, 0, -1]
        [1 / 2] 10 100 none = none := by
  constructor
  · intro G g mus tol max_iter
    simp [solve_contact, foldl_pass]
  · rfl

/-- C9 counterexample: at the dimensionally mismatched input `G = [[1]]`
    (1×1), `g = [5]` (length 1 ≠ 3), `mus = [1/2]` (Nc = 1), `solve_contact`
    does not fail fast: it silently returns the zero vector `[0,0,0]`; and
    `solve_contact_ADMM_CCP` performs no validation either, returning whatever
    global `lam` happens to be bound (here a stale vector `[9]` of unrelated
    length). -/
theorem no_dimension_validation_cx :
    solve_contact [[1]] [5] [1 / 2] (1 / 1000000) 100 = [0, 0, 0]
    ∧ solve_contact_ADMM_CCP [[1]] [5] [1 / 2] 10 100 (some [9]) = some [9] := by
  constructor
  · simp [solve_contact, foldl_pass, List.replicate]
  · rfl

/-- C9 amended: neither solver validates input dimensions.  For every
    dimensionally mismatched input (`len(g) ≠ 3·len(mus)`), `solve_contact`
    silently returns the zero vector of length `3·len(mus)` (it never reads
    `G` or `g`), and `solve_contact_ADMM_CCP` ignores all of its solver inputs,
    returning the global `lam` binding (`NameError` if unbound). -/
theorem solvers_ignore_dimensions (G : List (List ℝ)) (g : List ℝ)
    (mus : List ℝ) (tol rho : ℝ) (max_iter : ℕ) (globalLam : Option (List ℝ))
    (hmm : g.length ≠ 3 * mus.length) :
    solve_contact G g mus tol max_iter = List.replicate (3 * mus.length) 0
    ∧ solve_contact_ADMM_CCP G g mus rho max_iter globalLam = globalLam := by
  constructor
  · simp [solve_contact, foldl_pass]
  · rfl

/-- Witness for `solvers_ignore_dimensions` at the concrete mismatched input
    `g = [5]`, `mus = [1/2]`. -/
theorem solvers_ignore_dimensions_witness :
    ([(5 : ℝ)].length ≠ 3 * [(1 : ℝ) / 2].length)
    ∧ (solve_contact [[1]] [5] [1 / 2] (1 / 1000000) 7 =
          List.replicate (3 * [(1 : ℝ) / 2].length) 0
        ∧ solve_contact_ADMM_CCP [[1]] [5] [1 / 2] 10 7 (some [9]) = some [9]) :=
  ⟨by simp, solvers_ignore_dimensions [[1]] [5] [1 / 2] (1 / 1000000) 10 7
    (some [9]) (by simp)⟩

/-- C10: at the zero-contact input (`G` empty, `g` empty, `mus` empty),
    `solve_contact` returns the empty impulse vector without any per-contact
    iteration, but `solve_contact_ADMM_CCP` in a fresh namespace raises
    `NameError` (stub `return lam` with `lam` unbound) instead of returning an
    empty vector. -/
theorem zero_contacts_eval :
    solve_contact [] [] [] (1 / 1000000) 100 = []
    ∧ solve_contact_ADMM_CCP [] [] [] 10 100 none = none := by
  constructor
  · simp [solve_contact, foldl_pass]
  · rfl

/-- C7: as long as `len(lambda_n) ≥ 1` (NumPy errors on the empty reduction),
    `compute_sig_residual` returns exactly `0.0` regardless of the values of
    `lambda_n`, `c_n` and `c_n_star`: the residual vector it reduces is the
    all-zero allocation, never written by the placeholder loop. -/
theorem compute_sig_residual_always_zero (lambda_n c_n c_n_star : List ℝ)
    (h : 1 ≤ lambda_n.length) :
    compute_sig_residual lambda_n c_n c_n_star = some 0 := by
  simp only [compute_sig_residual, foldl_pass]
  obtain ⟨m, hm⟩ : ∃ m, 3 * lambda_n.length = m + 1 := ⟨3 * lambda_n.length - 1, by omega⟩
  rw [hm]
  simp only [linalg_norm_inf, List.replicate_succ, List.map_cons, List.map_replicate,
    abs_zero]
  rw [foldl_max_replicate_zero]

/-- Witness for `compute_sig_residual_always_zero` at the concrete input
    `lambda_n = [5]`, `c_n = [7]`, `c_n_star = [9]`. -/
theorem compute_sig_residual_always_zero_witness :
    1 ≤ [(5 : ℝ)].length ∧ compute_sig_residual [5] [7] [9] = some 0 :=
  ⟨by simp, compute_sig_residual_always_zero [5] [7] [9] (by simp)⟩

/-- C6: `compute_sig_residual` does not compute the Signorini residual the
    spec describes.  At `lambda_n = [-1]`, `c_n = [0]`, `c_n_star = [0]` the
    spec formula (`sig_residual_spec`, §4.4) yields `1` (the non-negativity
    violation `max(0, -λ_N) = 1`), while the unimplemented code returns `0`. -/
theorem compute_sig_residual_stub_eval :
    compute_sig_residual [-1] [0] [0] = some 0
    ∧ sig_residual_spec [-1] [0] [0] = some 1
    ∧ (0 : ℝ) ≠ 1 := by
  refine ⟨?_, ?_, by norm_num⟩
  · norm_num [compute_sig_residual, linalg_norm_inf, foldl_pass, List.replicate]
  · norm_num [sig_residual_spec, linalg_norm_inf]

end
